import Mathlib

/-!
Shallow embedding of `server.js` (dreamflow): a time-gated quiz server with a
duration codec, a phase-dispatching read handler, a leaderboard ranker and a
submission aggregator.  Definitions are translated from the JavaScript source;
theorems check the specification's claims against them.

JavaScript numbers are modelled as rational numbers; the rational arithmetic
of the library is made semireducible again so that concrete instances of the
theorems can be settled by evaluation.
-/

attribute [local semireducible] Rat.add Rat.mul Rat.sub Rat.inv Rat.ofScientific

set_option maxRecDepth 8000

/-- Decimal digit character for a value below ten, as produced by the decimal
number-to-string conversion (`toString()` in the source). -/
def digitChar (n : ℕ) : Char :=
  match n with
  | 0 => '0'
  | 1 => '1'
  | 2 => '2'
  | 3 => '3'
  | 4 => '4'
  | 5 => '5'
  | 6 => '6'
  | 7 => '7'
  | 8 => '8'
  | _ => '9'

/-- Decimal digit list of a natural number, fuelled so that the recursion is
structural: with fuel above `n` this is the most-significant-first digit list
of `n`. -/
def natDigitsAux : ℕ → ℕ → List Char
  | 0, _ => []
  | fuel + 1, n =>
    if n < 10 then [digitChar n]
    else natDigitsAux fuel (n / 10) ++ [digitChar (n % 10)]

/-- Decimal digit list of a natural number, most significant digit first
(the rendering performed by `Number.prototype.toString` on a non-negative
integer value). -/
def natDigits (n : ℕ) : List Char := natDigitsAux (n + 1) n

/-- Decimal rendering of an integer value (`toString()` on an integer-valued
number: a minus sign followed by the digits of the absolute value). -/
def intChars (i : ℤ) : List Char :=
  if i < 0 then '-' :: natDigits i.natAbs else natDigits i.toNat

/-- `String.prototype.padStart(2, '0')`, on the character list of the string:
prepend zeros until the length is at least two. -/
def pad2c (l : List Char) : List Char :=
  if l.length < 2 then List.replicate (2 - l.length) '0' ++ l else l

/-- Numeric value of a decimal digit character. -/
def digitVal (c : Char) : ℕ := c.toNat - 48

/-- Value of a digit string, as `parseInt` computes it on the digit-only
capture groups produced by the interval regex. -/
def parseNat (l : List Char) : ℕ := l.foldl (fun a c => 10 * a + digitVal c) 0

/-- Value contributed by the fractional-digit tail of the seconds capture
group: `parseFloat` reads `"d.f"` as the integer part plus `f / 10 ^ |f|`. -/
def fracVal (l : List Char) : ℚ := (parseNat l : ℚ) / 10 ^ l.length

/-- The fractional digits the regex `\.?\d*` tail captures after the integral
seconds digits: the greedy digit run after a leading dot, otherwise nothing. -/
def fracOf (r : List Char) : List Char :=
  match r with
  | c :: cs4 => if c = '.' then cs4.takeWhile Char.isDigit else []
  | [] => []

/-- The greedy `\d+` step of the interval regex: the maximal leading digit
run, which must be nonempty, together with the remaining characters. -/
def readNum (cs : List Char) : Option (List Char × List Char) :=
  match cs.takeWhile Char.isDigit with
  | [] => none
  | c :: ds => some (c :: ds, cs.dropWhile Char.isDigit)

/-- One attempt of the regex `(\d+):(\d+):(\d+\.?\d*)` anchored at the head of
the character list: greedy digit runs separated by colons, with an optional
fractional part.  Returns the parsed values of the three capture groups
(`parseInt` on the first two, `parseFloat` on the third). -/
def matchAt (cs : List Char) : Option (ℕ × ℕ × ℚ) :=
  match readNum cs with
  | none => none
  | some (d1, r1) =>
    match r1 with
    | [] => none
    | c1 :: cs2 =>
      if c1 = ':' then
        match readNum cs2 with
        | none => none
        | some (d2, r2) =>
          match r2 with
          | [] => none
          | c2 :: cs3 =>
            if c2 = ':' then
              match readNum cs3 with
              | none => none
              | some (d3, r3) =>
                some (parseNat d1, parseNat d2, (parseNat d3 : ℚ) + fracVal (fracOf r3))
            else none
      else none

/-- Leftmost match of the interval regex: `String.prototype.match` tries each
start position from the left and returns the first successful match. -/
def findMatch : List Char → Option (ℕ × ℕ × ℚ)
  | [] => none
  | c :: rest =>
    match matchAt (c :: rest) with
    | some r => some r
    | none => findMatch rest

/-- `intervalToMs` (server.js lines 21-33): convert a PostgreSQL interval
string such as `"00:05:30"` or `"1 day 00:05:30"` to milliseconds.  A falsy
input (empty string, modelling the `!interval` guard) or an input with no
regex match yields 0. -/
def intervalToMs (interval : String) : ℚ :=
  if interval = "" then 0
  else
    match findMatch interval.data with
    | some (h, m, s) => ((h : ℚ) * 3600 + (m : ℚ) * 60 + s) * 1000
    | none => 0

/-- The interval formatting inlined in the submit handler (server.js lines
159-164, duplicated verbatim at lines 178-182): truncate the millisecond
count to whole seconds with `Math.floor`, split into hours, minutes and
seconds (`Math.floor` division and the truncating `%` of JavaScript), and
render each part zero-padded to two characters, joined by colons. -/
def msToInterval (ms : ℚ) : String :=
  let totalSeconds : ℤ := ⌊ms / 1000⌋
  let hours : ℤ := totalSeconds.fdiv 3600
  let minutes : ℤ := (totalSeconds.tmod 3600).fdiv 60
  let seconds : ℤ := totalSeconds.tmod 60
  String.mk (pad2c (intChars hours) ++ ':' ::
    (pad2c (intChars minutes) ++ ':' :: pad2c (intChars seconds)))

/-- A row of the `users` table.  Field names follow the database columns the
server reads and writes; `time` is the cumulative elapsed duration, stored in
textual `HH:MM:SS` form. -/
structure UserRec where
  email : String
  number_of_correct_ans : ℕ
  time : String
  rank : ℕ
deriving DecidableEq

/-- A row of the `words` table: a vocabulary entry with its learning content. -/
structure WordItem where
  word : String
  content : String
deriving DecidableEq

/-- A row of the `questions` table: the word and its accepted answer. -/
structure Question where
  word : String
  correct : String
deriving DecidableEq

/-- The tables of the external record store. -/
structure Store where
  users : List UserRec
  words : List WordItem
  questions : List Question
deriving DecidableEq

/-- The three time-gated operating modes of the read handler. -/
inductive Phase
  | Learning
  | Quiz
  | Ranking
deriving DecidableEq

/-- `getCurrentUTCHour` (server.js lines 15-18) on an explicit clock reading:
the UTC hour plus the UTC minutes divided by sixty. -/
def getCurrentUTCHour (hours minutes : ℕ) : ℚ := (hours : ℚ) + (minutes : ℚ) / 60

/-- The phase dispatch of the read handler (server.js lines 46, 66 and 80):
`currentHour >= 0 && currentHour < 20` selects the learning branch,
`currentHour >= 20 && currentHour < 20.5` the quiz branch, and the final
`else` the rankings branch. -/
def phaseOf (currentHour : ℚ) : Phase :=
  if 0 ≤ currentHour ∧ currentHour < 20 then Phase.Learning
  else if 20 ≤ currentHour ∧ currentHour < 20.5 then Phase.Quiz
  else Phase.Ranking

/-- The row order requested from the store in the rankings branch (server.js
lines 82-86): `number_of_correct_ans` descending, ties by the `time` interval
ascending.  Interval values compare by their duration, which on the canonical
stored strings is `intervalToMs`. -/
def userLe (u v : UserRec) : Prop :=
  v.number_of_correct_ans < u.number_of_correct_ans ∨
    (u.number_of_correct_ans = v.number_of_correct_ans ∧
      intervalToMs u.time ≤ intervalToMs v.time)

instance : DecidableRel userLe := fun u v => by
  unfold userLe
  infer_instance

instance : IsTotal UserRec userLe where
  total u v := by
    unfold userLe
    rcases Nat.lt_trichotomy u.number_of_correct_ans v.number_of_correct_ans with hlt | heq | hgt
    · right
      left
      exact hlt
    · rcases le_total (intervalToMs u.time) (intervalToMs v.time) with hle | hge
      · left
        right
        exact ⟨heq, hle⟩
      · right
        right
        exact ⟨heq.symm, hge⟩
    · left
      left
      exact hgt

instance : IsTrans UserRec userLe where
  trans a b c hab hbc := by
    unfold userLe at *
    rcases hab with h1 | ⟨e1, l1⟩ <;> rcases hbc with h2 | ⟨e2, l2⟩
    · left
      omega
    · left
      omega
    · left
      omega
    · right
      exact ⟨e1.trans e2, l1.trans l2⟩

/-- `users.map((user, index) => ({...user, rank: index + 1}))` (server.js
lines 91-94), with the running position made an explicit offset. -/
def rankFrom (i : ℕ) : List UserRec → List UserRec
  | [] => []
  | u :: rest => { u with rank := i + 1 } :: rankFrom (i + 1) rest

/-- Rank assignment over the ordered user list: 1-based positions. -/
def rankUsers (users : List UserRec) : List UserRec := rankFrom 0 users

/-- The rank-independent fields of a user row: everything the ranking pass
leaves untouched. -/
def rowCore (u : UserRec) : String × ℕ × String :=
  (u.email, u.number_of_correct_ans, u.time)

/-- `update({rank: r}).eq('email', email)` (server.js lines 98-101): overwrite
the rank of every row whose email matches. -/
def updateRankByEmail (db : List UserRec) (email : String) (r : ℕ) : List UserRec :=
  db.map fun u => if u.email = email then { u with rank := r } else u

/-- Cumulative effect of the rank-update loop over a list of ranked users. -/
def applyRankUpdates (ranked : List UserRec) (db : List UserRec) : List UserRec :=
  ranked.foldl (fun d v => updateRankByEmail d v.email v.rank) db

/-- The rank-persistence loop (server.js lines 97-102), with collaborator
failures injected by `fail`.  Unlike every other store call in the file, the
awaited update's result is discarded — there is no `if (error) throw` — and
the store client reports failures in-band rather than throwing, so a failing
update writes nothing, its error is silently ignored, and the loop continues
with the next user.  Returns the users table as left behind. -/
def persistRanks (fail : String → Option String) :
    List UserRec → List UserRec → List UserRec
  | [], db => db
  | u :: rest, db =>
    match fail u.email with
    | some _ => persistRanks fail rest db
    | none => persistRanks fail rest (updateRankByEmail db u.email u.rank)

/-- The body of a successful or failed GET `/api/data/:email` response.  The
`serverError` shape is the catch-block 500, reachable in the source from a
thrown select error; the model does not inject select failures, so no
handler path below produces it. -/
inductive ReadResult
  | words (data : List WordItem) (message : String)
  | questions (data : List Question) (message : String)
  | rankings (user : Option UserRec) (leaderboard : List UserRec) (message : String)
  | serverError (error : String)
deriving DecidableEq

/-- The GET `/api/data/:email` handler (server.js lines 36-121).  The learning
branch resets the rank of every row with a non-empty email (the
`.neq('email', '')` filter) and returns the words table; the quiz branch
returns the questions table; the rankings branch sorts the users, assigns
1-based ranks, runs the rank-update loop (whose per-row failures the source
silently discards), and returns the requesting user's row alongside the
leaderboard regardless. -/
def handleRead (currentHour : ℚ) (email : String)
    (failRankUpdate : String → Option String) (store : Store) : Store × ReadResult :=
  match phaseOf currentHour with
  | Phase.Learning =>
    let users1 := store.users.map fun u => if u.email ≠ "" then { u with rank := 0 } else u
    ({ store with users := users1 },
      ReadResult.words store.words "Words learning period (12 AM - 8 PM UTC)")
  | Phase.Quiz =>
    (store, ReadResult.questions store.questions "Quiz period (8:00 PM - 8:30 PM UTC)")
  | Phase.Ranking =>
    let rankedUsers := rankUsers (List.insertionSort userLe store.users)
    let db1 := persistRanks failRankUpdate rankedUsers store.users
    let userData := rankedUsers.find? fun u => u.email == email
    ({ store with users := db1 },
      ReadResult.rankings userData rankedUsers "Rankings period (8:30 PM - 12 AM UTC)")

/-- The JSON body of a POST `/api/submit` request; a field holds `none` when
it is absent from the request (the destructuring at server.js line 126 then
yields a falsy `undefined`). -/
structure SubmitBody where
  email : Option String
  answers : Option (List (String × String))
  time : Option (List (String × ℚ))

/-- The body of a POST `/api/submit` response. -/
inductive SubmitResult
  | badRequest (error : String)
  | ok (correctAnswers : ℕ) (totalQuestions : ℕ) (timeTaken : String) (message : String)
deriving DecidableEq

/-- The 400 message of the submit handler (server.js line 131). -/
def missingFieldsMsg : String := "Missing required fields: email, answers, time"

/-- One iteration of the scoring loop (server.js lines 146-157): find the
question matching the submitted word and count the answer if it equals the
accepted one; add the submitted elapsed time for the word when the `time`
mapping has a truthy entry for it (a number is truthy exactly when it is
non-zero). -/
def scoreStep (questions : List Question) (time : List (String × ℚ))
    (acc : ℕ × ℚ) (wa : String × String) : ℕ × ℚ :=
  let c :=
    match questions.find? fun q => q.word == wa.1 with
    | some q => if q.correct == wa.2 then acc.1 + 1 else acc.1
    | none => acc.1
  let t :=
    match List.lookup wa.1 time with
    | some v => if v ≠ 0 then acc.2 + v else acc.2
    | none => acc.2
  (c, t)

/-- The scoring loop (server.js lines 143-157): fold the iteration over the
entries of `answers`, starting from zero correct answers and zero total
time. -/
def scoreLoop (questions : List Question) (answers : List (String × String))
    (time : List (String × ℚ)) : ℕ × ℚ :=
  answers.foldl (scoreStep questions time) (0, 0)

/-- `select('*').eq('email', email).single()` (server.js lines 167-171): the
row data is present exactly when the filter matches a single row; with zero
or several matching rows `.single()` reports an error, which the handler does
not check, leaving `existingUser` null. -/
def selectSingle (db : List UserRec) (email : String) : Option UserRec :=
  match db.filter fun u => u.email == email with
  | [u] => some u
  | _ => none

/-- The POST `/api/submit` handler (server.js lines 124-221): reject the
request with a 400 when `email`, `answers` or `time` is falsy (absent, or the
empty string for `email`); otherwise score the attempt, format its interval,
and either merge it into the existing row for the email (adding the correct
count, adding the milliseconds and reformatting) or insert a new row with the
attempt's values and rank 0. -/
def handleSubmit (store : Store) (body : SubmitBody) : Store × SubmitResult :=
  match body.email, body.answers, body.time with
  | some email, some answers, some time =>
    if email = "" then (store, SubmitResult.badRequest missingFieldsMsg)
    else
      let scored := scoreLoop store.questions answers time
      let intervalString := msToInterval scored.2
      match selectSingle store.users email with
      | some existingUser =>
        let newIntervalString := msToInterval (intervalToMs existingUser.time + scored.2)
        let users1 := store.users.map fun u =>
          if u.email = email then
            { u with
                number_of_correct_ans := existingUser.number_of_correct_ans + scored.1,
                time := newIntervalString }
          else u
        ({ store with users := users1 },
          SubmitResult.ok scored.1 answers.length intervalString
            "Answers submitted successfully")
      | none =>
        ({ store with users := store.users ++
            [{ email := email, number_of_correct_ans := scored.1,
               time := intervalString, rank := 0 }] },
          SubmitResult.ok scored.1 answers.length intervalString
            "Answers submitted successfully")
  | _, _, _ => (store, SubmitResult.badRequest missingFieldsMsg)

/-! ### Lemmas about the duration codec -/

theorem foldl_parse_shift (l : List Char) (a : ℕ) :
    l.foldl (fun a c => 10 * a + digitVal c) a =
      a * 10 ^ l.length + l.foldl (fun a c => 10 * a + digitVal c) 0 := by
  induction l generalizing a with
  | nil => simp
  | cons c t ih =>
    rw [List.foldl_cons, List.foldl_cons, ih (10 * a + digitVal c), ih (10 * 0 + digitVal c)]
    simp [List.length_cons, pow_succ]
    ring

theorem parseNat_cons (c : Char) (t : List Char) :
    parseNat (c :: t) = digitVal c * 10 ^ t.length + parseNat t := by
  rw [parseNat, List.foldl_cons, foldl_parse_shift]
  simp [parseNat]

theorem parseNat_append (l1 l2 : List Char) :
    parseNat (l1 ++ l2) = parseNat l1 * 10 ^ l2.length + parseNat l2 := by
  rw [parseNat, List.foldl_append, foldl_parse_shift]
  simp [parseNat]

theorem parseNat_zeros (k : ℕ) (l : List Char) :
    parseNat (List.replicate k '0' ++ l) = parseNat l := by
  induction k with
  | zero => simp
  | succ n ih =>
    rw [List.replicate_succ, List.cons_append, parseNat_cons, ih]
    have h0 : digitVal '0' = 0 := rfl
    simp [h0]

theorem digitVal_digitChar (n : ℕ) (h : n < 10) : digitVal (digitChar n) = n := by
  interval_cases n <;> decide

theorem isDigit_digitChar (n : ℕ) : (digitChar n).isDigit = true := by
  unfold digitChar
  rcases n with _ | _ | _ | _ | _ | _ | _ | _ | _ | n <;> rfl

theorem natDigitsAux_fuel (fuel1 fuel2 n : ℕ) (h1 : n < fuel1) (h2 : n < fuel2) :
    natDigitsAux fuel1 n = natDigitsAux fuel2 n := by
  induction fuel1 generalizing fuel2 n with
  | zero => omega
  | succ f1 ih =>
    cases fuel2 with
    | zero => omega
    | succ f2 =>
      rw [natDigitsAux, natDigitsAux]
      by_cases hn : n < 10
      · simp [hn]
      · simp only [hn, if_false]
        rw [ih f2 (n / 10) (by omega) (by omega)]

theorem natDigits_eq (n : ℕ) :
    natDigits n = if n < 10 then [digitChar n] else natDigits (n / 10) ++ [digitChar (n % 10)] := by
  by_cases h : n < 10
  · simp [natDigits, natDigitsAux, h]
  · rw [natDigits, natDigitsAux]
    simp only [h, if_false]
    rw [natDigitsAux_fuel n (n / 10 + 1) (n / 10) (by omega) (by omega)]
    rfl

theorem natDigits_ne_nil (n : ℕ) : natDigits n ≠ [] := by
  rw [natDigits_eq]
  by_cases h : n < 10 <;> simp [h]

theorem isDigit_natDigits (n : ℕ) : ∀ c ∈ natDigits n, c.isDigit = true := by
  induction n using Nat.strong_induction_on with
  | _ n ih =>
    rw [natDigits_eq]
    by_cases h : n < 10
    · simp only [h, if_true, List.mem_singleton]
      rintro c rfl
      exact isDigit_digitChar n
    · simp only [h, if_false, List.mem_append, List.mem_singleton]
      rintro c (hc | rfl)
      · exact ih (n / 10) (Nat.div_lt_self (by omega) (by omega)) c hc
      · exact isDigit_digitChar (n % 10)

theorem parseNat_natDigits (n : ℕ) : parseNat (natDigits n) = n := by
  induction n using Nat.strong_induction_on with
  | _ n ih =>
    rw [natDigits_eq]
    by_cases h : n < 10
    · simp only [h, if_true]
      rw [parseNat_cons]
      simp [parseNat, digitVal_digitChar n h]
    · simp only [h, if_false]
      rw [parseNat_append, ih (n / 10) (Nat.div_lt_self (by omega) (by omega))]
      rw [parseNat_cons]
      simp [parseNat, digitVal_digitChar (n % 10) (by omega)]
      omega

theorem pad2c_ne_nil (l : List Char) : pad2c l ≠ [] := by
  rw [pad2c]
  by_cases h : l.length < 2
  · simp only [h, if_true]
    cases l with
    | nil => simp
    | cons c t => simp
  · simp only [h, if_false]
    intro he
    rw [he] at h
    simp at h

theorem isDigit_pad2c (l : List Char) (hl : ∀ c ∈ l, c.isDigit = true) :
    ∀ c ∈ pad2c l, c.isDigit = true := by
  rw [pad2c]
  by_cases h : l.length < 2
  · simp only [h, if_true]
    intro c hc
    rcases List.mem_append.mp hc with hm | hm
    · rw [List.eq_of_mem_replicate hm]
      rfl
    · exact hl c hm
  · simp only [h, if_false]
    exact hl

theorem parseNat_pad2c (l : List Char) : parseNat (pad2c l) = parseNat l := by
  rw [pad2c]
  by_cases h : l.length < 2
  · simp only [h, if_true]
    exact parseNat_zeros (2 - l.length) l
  · simp [h]

theorem takeWhile_digits (d r : List Char) (hd : ∀ c ∈ d, c.isDigit = true)
    (hr : ∀ c ∈ r.take 1, c.isDigit = false) :
    (d ++ r).takeWhile Char.isDigit = d := by
  induction d with
  | nil =>
    cases r with
    | nil => rfl
    | cons c t =>
      have hc : c.isDigit = false := hr c (by simp)
      simp [List.takeWhile_cons, hc]
  | cons c t ih =>
    have hc : c.isDigit = true := hd c (by simp)
    simp only [List.cons_append, List.takeWhile_cons, hc, if_true]
    rw [ih (fun x hx => hd x (by simp [hx]))]

theorem dropWhile_digits (d r : List Char) (hd : ∀ c ∈ d, c.isDigit = true)
    (hr : ∀ c ∈ r.take 1, c.isDigit = false) :
    (d ++ r).dropWhile Char.isDigit = r := by
  induction d with
  | nil =>
    cases r with
    | nil => rfl
    | cons c t =>
      have hc : c.isDigit = false := hr c (by simp)
      simp [List.dropWhile_cons, hc]
  | cons c t ih =>
    have hc : c.isDigit = true := hd c (by simp)
    simp only [List.cons_append, List.dropWhile_cons, hc, if_true]
    rw [ih (fun x hx => hd x (by simp [hx]))]

theorem readNum_eval (d r : List Char) (hne : d ≠ []) (hd : ∀ c ∈ d, c.isDigit = true)
    (hr : ∀ c ∈ r.take 1, c.isDigit = false) :
    readNum (d ++ r) = some (d, r) := by
  obtain ⟨c, t, rfl⟩ := List.exists_cons_of_ne_nil hne
  have et : ((c :: t) ++ r).takeWhile Char.isDigit = c :: t :=
    takeWhile_digits (c :: t) r hd hr
  have ed : ((c :: t) ++ r).dropWhile Char.isDigit = r :=
    dropWhile_digits (c :: t) r hd hr
  rw [readNum, et, ed]

theorem matchAt_eval (d1 d2 d3 rest : List Char)
    (h1 : d1 ≠ []) (hd1 : ∀ c ∈ d1, c.isDigit = true)
    (h2 : d2 ≠ []) (hd2 : ∀ c ∈ d2, c.isDigit = true)
    (h3 : d3 ≠ []) (hd3 : ∀ c ∈ d3, c.isDigit = true)
    (hr : ∀ c ∈ rest.take 1, c.isDigit = false) :
    matchAt (d1 ++ ':' :: (d2 ++ ':' :: (d3 ++ rest))) =
      some (parseNat d1, parseNat d2, (parseNat d3 : ℚ) + fracVal (fracOf rest)) := by
  have hcolon : ∀ (l : List Char), ∀ c ∈ (':' :: l).take 1, c.isDigit = false := by
    rintro l c hc
    simp at hc
    rw [hc]
    rfl
  have e1 : readNum (d1 ++ ':' :: (d2 ++ ':' :: (d3 ++ rest))) =
      some (d1, ':' :: (d2 ++ ':' :: (d3 ++ rest))) :=
    readNum_eval d1 _ h1 hd1 (hcolon _)
  have e2 : readNum (d2 ++ ':' :: (d3 ++ rest)) = some (d2, ':' :: (d3 ++ rest)) :=
    readNum_eval d2 _ h2 hd2 (hcolon _)
  have e3 : readNum (d3 ++ rest) = some (d3, rest) := readNum_eval d3 _ h3 hd3 hr
  rw [matchAt, e1]
  simp [e2, e3]

theorem findMatch_of_matchAt (c : Char) (t : List Char) (r : ℕ × ℕ × ℚ)
    (h : matchAt (c :: t) = some r) : findMatch (c :: t) = some r := by
  rw [findMatch, h]

theorem findMatch_cons_of_nondigit (c : Char) (t : List Char) (h : c.isDigit = false) :
    findMatch (c :: t) = findMatch t := by
  have hm : matchAt (c :: t) = none := by
    have ht : (c :: t).takeWhile Char.isDigit = [] := by
      simp [List.takeWhile_cons, h]
    rw [matchAt, readNum, ht]
  rw [findMatch, hm]

theorem findMatch_digits_skip (d r : List Char) (hd : ∀ c ∈ d, c.isDigit = true)
    (hr : ∀ c ∈ r.take 1, c.isDigit = false ∧ c ≠ ':') :
    findMatch (d ++ r) = findMatch r := by
  induction d with
  | nil => rfl
  | cons c t ih =>
    have hrest : ∀ x ∈ r.take 1, x.isDigit = false := fun x hx => (hr x hx).1
    have hm : matchAt (c :: (t ++ r)) = none := by
      have hdt : ∀ x ∈ c :: t, x.isDigit = true := hd
      have e1 : readNum ((c :: t) ++ r) = some (c :: t, r) :=
        readNum_eval (c :: t) r (by simp) hdt hrest
      rw [List.cons_append] at e1
      rw [matchAt, e1]
      cases r with
      | nil => rfl
      | cons c0 t0 =>
        have hc0 : c0 ≠ ':' := (hr c0 (by simp)).2
        simp only [if_neg hc0]
    rw [List.cons_append, findMatch, hm]
    exact ih (fun x hx => hd x (by simp [hx]))

theorem fracVal_nil : fracVal [] = 0 := by
  simp [fracVal, parseNat]

theorem findMatch_hms (h m s : ℕ) (rest : List Char)
    (hr : ∀ c ∈ rest.take 1, c.isDigit = false) :
    findMatch (pad2c (natDigits h) ++ ':' ::
        (pad2c (natDigits m) ++ ':' :: (pad2c (natDigits s) ++ rest))) =
      some (h, m, (s : ℚ) + fracVal (fracOf rest)) := by
  have hm := matchAt_eval (pad2c (natDigits h)) (pad2c (natDigits m)) (pad2c (natDigits s)) rest
    (pad2c_ne_nil _) (isDigit_pad2c _ (isDigit_natDigits h))
    (pad2c_ne_nil _) (isDigit_pad2c _ (isDigit_natDigits m))
    (pad2c_ne_nil _) (isDigit_pad2c _ (isDigit_natDigits s)) hr
  rw [parseNat_pad2c, parseNat_pad2c, parseNat_pad2c, parseNat_natDigits, parseNat_natDigits,
    parseNat_natDigits] at hm
  obtain ⟨c, t, hct⟩ := List.exists_cons_of_ne_nil (pad2c_ne_nil (natDigits h))
  rw [hct] at hm ⊢
  rw [List.cons_append] at hm ⊢
  exact findMatch_of_matchAt _ _ _ hm

theorem intChars_natCast (k : ℕ) : intChars (k : ℤ) = natDigits k := by
  rw [intChars, if_neg (by omega)]
  simp

theorem msToInterval_natCast (n : ℕ) :
    msToInterval (n : ℚ) =
      String.mk (pad2c (natDigits (n / 1000 / 3600)) ++ ':' ::
        (pad2c (natDigits (n / 1000 % 3600 / 60)) ++ ':' ::
          pad2c (natDigits (n / 1000 % 60)))) := by
  have hts : (⌊(n : ℚ) / 1000⌋ : ℤ) = ((n / 1000 : ℕ) : ℤ) := by
    have h1 : ((n : ℚ) / 1000) = (((n : ℤ) : ℚ) / ((1000 : ℕ) : ℚ)) := by push_cast; ring
    rw [h1, Rat.floor_intCast_div_natCast]
    omega
  have hfd : ((n / 1000 : ℕ) : ℤ).fdiv 3600 = ((n / 1000 / 3600 : ℕ) : ℤ) := by
    rw [Int.fdiv_eq_ediv _ (by omega)]
    omega
  have htm : ((n / 1000 : ℕ) : ℤ).tmod 3600 = ((n / 1000 % 3600 : ℕ) : ℤ) := by
    rw [Int.tmod_eq_emod (by omega) (by omega)]
    omega
  have hfd2 : ((n / 1000 % 3600 : ℕ) : ℤ).fdiv 60 = ((n / 1000 % 3600 / 60 : ℕ) : ℤ) := by
    rw [Int.fdiv_eq_ediv _ (by omega)]
    omega
  have htm2 : ((n / 1000 : ℕ) : ℤ).tmod 60 = ((n / 1000 % 60 : ℕ) : ℤ) := by
    rw [Int.tmod_eq_emod (by omega) (by omega)]
    omega
  simp only [msToInterval, hts, hfd, htm, hfd2, htm2, intChars_natCast]

/-- C6: for every non-negative integer millisecond count `ms`, parsing the
formatted interval gives back `ms` truncated to whole seconds, i.e.
`intervalToMs (msToInterval ms) = (ms / 1000) * 1000` with natural floor
division. -/
theorem duration_roundtrip (ms : ℕ) :
    intervalToMs (msToInterval (ms : ℚ)) = ((ms / 1000 : ℕ) : ℚ) * 1000 := by
  rw [msToInterval_natCast]
  have hfm := findMatch_hms (ms / 1000 / 3600) (ms / 1000 % 3600 / 60) (ms / 1000 % 60) []
    (by simp)
  rw [List.append_nil] at hfm
  have hne : String.mk (pad2c (natDigits (ms / 1000 / 3600)) ++ ':' ::
      (pad2c (natDigits (ms / 1000 % 3600 / 60)) ++ ':' ::
        pad2c (natDigits (ms / 1000 % 60)))) ≠ "" := by
    intro h0
    have hdata := congrArg String.data h0
    simp at hdata
  rw [intervalToMs, if_neg hne]
  have hdat : (String.mk (pad2c (natDigits (ms / 1000 / 3600)) ++ ':' ::
      (pad2c (natDigits (ms / 1000 % 3600 / 60)) ++ ':' ::
        pad2c (natDigits (ms / 1000 % 60))))).data =
      pad2c (natDigits (ms / 1000 / 3600)) ++ ':' ::
        (pad2c (natDigits (ms / 1000 % 3600 / 60)) ++ ':' ::
          pad2c (natDigits (ms / 1000 % 60))) := rfl
  rw [hdat, hfm]
  rw [show fracOf ([] : List Char) = [] from rfl, fracVal_nil, add_zero]
  have h1 : ms / 1000 / 3600 * 3600 + ms / 1000 % 3600 / 60 * 60 + ms / 1000 % 60 = ms / 1000 := by
    omega
  have h2 : ((ms / 1000 / 3600 : ℕ) : ℚ) * 3600 + ((ms / 1000 % 3600 / 60 : ℕ) : ℚ) * 60 +
      ((ms / 1000 % 60 : ℕ) : ℚ) = ((ms / 1000 : ℕ) : ℚ) := by
    exact_mod_cast congrArg (Nat.cast : ℕ → ℚ) h1
  exact congrArg (fun q => q * 1000) h2

theorem findMatch_nondigit_skip (sep r : List Char) (hs : ∀ c ∈ sep, c.isDigit = false) :
    findMatch (sep ++ r) = findMatch r := by
  induction sep with
  | nil => rfl
  | cons c t ih =>
    rw [List.cons_append, findMatch_cons_of_nondigit c _ (hs c (by simp))]
    exact ih (fun x hx => hs x (by simp [hx]))

theorem intervalToMs_days_hms (d h m s : ℕ) (sep rest : List Char) (hsep : sep ≠ [])
    (hs : ∀ c ∈ sep, c.isDigit = false ∧ c ≠ ':')
    (hr : ∀ c ∈ rest.take 1, c.isDigit = false) :
    intervalToMs (String.mk (natDigits d ++ (sep ++ (pad2c (natDigits h) ++ ':' ::
        (pad2c (natDigits m) ++ ':' :: (pad2c (natDigits s) ++ rest)))))) =
      ((h : ℚ) * 3600 + (m : ℚ) * 60 + ((s : ℚ) + fracVal (fracOf rest))) * 1000 := by
  obtain ⟨c0, t0, rfl⟩ := List.exists_cons_of_ne_nil hsep
  have hskip1 : findMatch (natDigits d ++ ((c0 :: t0) ++ (pad2c (natDigits h) ++ ':' ::
      (pad2c (natDigits m) ++ ':' :: (pad2c (natDigits s) ++ rest))))) =
      findMatch ((c0 :: t0) ++ (pad2c (natDigits h) ++ ':' ::
        (pad2c (natDigits m) ++ ':' :: (pad2c (natDigits s) ++ rest)))) := by
    apply findMatch_digits_skip _ _ (isDigit_natDigits d)
    intro c hc
    simp only [List.cons_append, List.take_succ_cons, List.take_zero, List.mem_singleton] at hc
    rw [hc]
    exact hs c0 (by simp)
  have hskip2 := findMatch_nondigit_skip (c0 :: t0) (pad2c (natDigits h) ++ ':' ::
      (pad2c (natDigits m) ++ ':' :: (pad2c (natDigits s) ++ rest)))
    (fun x hx => (hs x hx).1)
  have hfm := findMatch_hms h m s rest hr
  have hne : String.mk (natDigits d ++ ((c0 :: t0) ++ (pad2c (natDigits h) ++ ':' ::
      (pad2c (natDigits m) ++ ':' :: (pad2c (natDigits s) ++ rest))))) ≠ "" := by
    intro h0
    have hdata := congrArg String.data h0
    simp only [List.append_assoc] at hdata
    rcases List.append_eq_nil.mp hdata with ⟨hd1, _⟩
    exact natDigits_ne_nil d hd1
  rw [intervalToMs, if_neg hne]
  have hdat : (String.mk (natDigits d ++ ((c0 :: t0) ++ (pad2c (natDigits h) ++ ':' ::
      (pad2c (natDigits m) ++ ':' :: (pad2c (natDigits s) ++ rest)))))).data =
      natDigits d ++ ((c0 :: t0) ++ (pad2c (natDigits h) ++ ':' ::
        (pad2c (natDigits m) ++ ':' :: (pad2c (natDigits s) ++ rest)))) := rfl
  rw [hdat, hskip1, hskip2, hfm]

/-- C10: for every interval string made of a days prefix — a day count
followed by a separator such as `" day "` or `" days "` containing neither
digits nor colons — and an `HH:MM:SS` or `HH:MM:SS.fff` time, `intervalToMs`
returns only the milliseconds of the time portion: the day count contributes
nothing to the result. -/
theorem days_prefix_contributes_nothing (d h m s : ℕ) (sep : List Char) (hsep : sep ≠ [])
    (hs : ∀ c ∈ sep, c.isDigit = false ∧ c ≠ ':') :
    intervalToMs (String.mk (natDigits d ++ (sep ++ (pad2c (natDigits h) ++ ':' ::
        (pad2c (natDigits m) ++ ':' :: pad2c (natDigits s)))))) =
      ((h : ℚ) * 3600 + (m : ℚ) * 60 + (s : ℚ)) * 1000 ∧
    (∀ fr : List Char, (∀ c ∈ fr, c.isDigit = true) →
      intervalToMs (String.mk (natDigits d ++ (sep ++ (pad2c (natDigits h) ++ ':' ::
          (pad2c (natDigits m) ++ ':' :: (pad2c (natDigits s) ++ '.' :: fr)))))) =
        ((h : ℚ) * 3600 + (m : ℚ) * 60 + ((s : ℚ) + fracVal fr)) * 1000) := by
  constructor
  · have he := intervalToMs_days_hms d h m s sep [] hsep hs (by simp)
    rw [List.append_nil] at he
    rw [he, show fracOf ([] : List Char) = [] from rfl, fracVal_nil, add_zero]
  · intro fr hfr
    have h1 : ∀ c ∈ ('.' :: fr).take 1, c.isDigit = false := by
      intro c hc
      simp only [List.take_succ_cons, List.take_zero, List.mem_singleton] at hc
      rw [hc]
      rfl
    have he := intervalToMs_days_hms d h m s sep ('.' :: fr) hsep hs h1
    rw [he]
    have h2 : fracOf ('.' :: fr) = fr := by
      have h3 := takeWhile_digits fr [] hfr (by simp)
      rw [List.append_nil] at h3
      simp [fracOf, h3]
    rw [h2]

theorem days_prefix_contributes_nothing_witness :
    intervalToMs (String.mk (natDigits 1 ++ ((' ' :: 'd' :: 'a' :: 'y' :: [' ']) ++
        (pad2c (natDigits 0) ++ ':' :: (pad2c (natDigits 5) ++ ':' :: pad2c (natDigits 30)))))) =
      330000 ∧
    intervalToMs (String.mk (natDigits 1 ++ ((' ' :: 'd' :: 'a' :: 'y' :: [' ']) ++
        (pad2c (natDigits 0) ++ ':' :: (pad2c (natDigits 5) ++ ':' ::
          (pad2c (natDigits 30) ++ '.' :: ['5'])))))) = 330500 := by
  constructor
  · rw [(days_prefix_contributes_nothing 1 0 5 30 (' ' :: 'd' :: 'a' :: 'y' :: [' '])
      (by decide) (by decide)).1]
    decide
  · rw [(days_prefix_contributes_nothing 1 0 5 30 (' ' :: 'd' :: 'a' :: 'y' :: [' '])
      (by decide) (by decide)).2 ['5'] (by decide)]
    decide

/-- C7: on the UTC hour-of-day range `[0, 24)` the phase selector picks
`Learning` exactly on `[0, 20)`, `Quiz` exactly on `[20, 20.5)` and `Ranking`
exactly on `[20.5, 24)`; the boundaries are half-open, so hour 20 is `Quiz`
and hour 20.5 is `Ranking`. -/
theorem phase_boundaries (h : ℚ) (h0 : 0 ≤ h) (h24 : h < 24) :
    (phaseOf h = Phase.Learning ↔ 0 ≤ h ∧ h < 20) ∧
    (phaseOf h = Phase.Quiz ↔ 20 ≤ h ∧ h < 20.5) ∧
    (phaseOf h = Phase.Ranking ↔ 20.5 ≤ h ∧ h < 24) ∧
    phaseOf 20 = Phase.Quiz ∧ phaseOf (20.5 : ℚ) = Phase.Ranking := by
  have hL : phaseOf h = Phase.Learning ↔ 0 ≤ h ∧ h < 20 := by
    constructor
    · intro hp
      by_contra hc
      rw [phaseOf, if_neg hc] at hp
      by_cases c2 : 20 ≤ h ∧ h < 20.5
      · rw [if_pos c2] at hp
        exact Phase.noConfusion hp
      · rw [if_neg c2] at hp
        exact Phase.noConfusion hp
    · intro hc
      rw [phaseOf, if_pos hc]
  have hQ : phaseOf h = Phase.Quiz ↔ 20 ≤ h ∧ h < 20.5 := by
    constructor
    · intro hp
      rw [phaseOf] at hp
      by_cases c1 : 0 ≤ h ∧ h < 20
      · rw [if_pos c1] at hp
        exact Phase.noConfusion hp
      · rw [if_neg c1] at hp
        by_cases c2 : 20 ≤ h ∧ h < 20.5
        · exact c2
        · rw [if_neg c2] at hp
          exact Phase.noConfusion hp
    · intro hc
      rw [phaseOf, if_neg (by rintro ⟨_, hlt⟩; linarith [hc.1]), if_pos hc]
  have hR : phaseOf h = Phase.Ranking ↔ 20.5 ≤ h ∧ h < 24 := by
    constructor
    · intro hp
      rw [phaseOf] at hp
      by_cases c1 : 0 ≤ h ∧ h < 20
      · rw [if_pos c1] at hp
        exact Phase.noConfusion hp
      · rw [if_neg c1] at hp
        by_cases c2 : 20 ≤ h ∧ h < 20.5
        · rw [if_pos c2] at hp
          exact Phase.noConfusion hp
        · push_neg at c1 c2
          exact ⟨c2 (c1 h0), h24⟩
    · intro hc
      rw [phaseOf, if_neg (by rintro ⟨_, hlt⟩; linarith [hc.1]),
        if_neg (by rintro ⟨_, hlt⟩; linarith [hc.1])]
  exact ⟨hL, hQ, hR, by decide, by decide⟩

theorem phase_boundaries_witness : phaseOf (20.5 : ℚ) = Phase.Ranking :=
  ((phase_boundaries 20.5 (by decide) (by decide)).2.2.1).mpr ⟨by decide, by decide⟩

/-! ### Lemmas about the scoring loop -/

theorem scoreStep_split (qs : List Question) (tm : List (String × ℚ)) (acc : ℕ × ℚ)
    (wa : String × String) :
    scoreStep qs tm acc wa =
      (acc.1 + (scoreStep qs tm (0, 0) wa).1, acc.2 + (scoreStep qs tm (0, 0) wa).2) := by
  simp only [scoreStep]
  cases hf : List.find? (fun q => q.word == wa.1) qs <;>
    cases hl : List.lookup wa.1 tm <;>
      simp [hf, hl] <;> split_ifs <;> simp

theorem scoreLoop_acc (qs : List Question) (tm : List (String × ℚ))
    (answers : List (String × String)) (acc : ℕ × ℚ) :
    answers.foldl (scoreStep qs tm) acc =
      (acc.1 + (scoreLoop qs answers tm).1, acc.2 + (scoreLoop qs answers tm).2) := by
  induction answers generalizing acc with
  | nil => simp [scoreLoop]
  | cons wa rest ih =>
    rw [scoreLoop, List.foldl_cons, List.foldl_cons, ih (scoreStep qs tm acc wa),
      ih (scoreStep qs tm (0, 0) wa), scoreStep_split qs tm acc wa]
    simp [add_assoc]

theorem scoreLoop_cons (qs : List Question) (tm : List (String × ℚ)) (wa : String × String)
    (answers : List (String × String)) :
    scoreLoop qs (wa :: answers) tm =
      ((scoreStep qs tm (0, 0) wa).1 + (scoreLoop qs answers tm).1,
        (scoreStep qs tm (0, 0) wa).2 + (scoreLoop qs answers tm).2) := by
  rw [scoreLoop, List.foldl_cons, scoreLoop_acc]

theorem scoreStep_snd_eq_getD (qs : List Question) (tm : List (String × ℚ))
    (wa : String × String) :
    (scoreStep qs tm (0, 0) wa).2 = (List.lookup wa.1 tm).getD 0 := by
  simp only [scoreStep]
  cases hl : List.lookup wa.1 tm with
  | none => simp [hl]
  | some v =>
    simp only [hl]
    by_cases hv : v = 0
    · simp [hv]
    · simp [hv]

/-- C3: the attempt's total elapsed milliseconds is the sum, over the entries
of `answers`, of the numeric value of the matching `time` entry when one
exists and zero otherwise; a `time` entry whose key does not occur in
`answers` contributes nothing to the total. -/
theorem total_time_sums_answers_keys (qs : List Question) (answers : List (String × String))
    (tm : List (String × ℚ)) (k : String) (v : ℚ)
    (hk : ∀ wa ∈ answers, wa.1 ≠ k) :
    (scoreLoop qs answers tm).2 =
      (answers.map (fun wa => (List.lookup wa.1 tm).getD 0)).sum ∧
    scoreLoop qs answers ((k, v) :: tm) = scoreLoop qs answers tm := by
  have h1 : ∀ ans : List (String × String),
      (scoreLoop qs ans tm).2 = (ans.map (fun wa => (List.lookup wa.1 tm).getD 0)).sum := by
    intro ans
    induction ans with
    | nil => simp [scoreLoop]
    | cons wa rest ih =>
      rw [scoreLoop_cons]
      simp only [List.map_cons, List.sum_cons]
      rw [scoreStep_snd_eq_getD, ih]
  have h2 : ∀ ans : List (String × String), (∀ wa ∈ ans, wa.1 ≠ k) →
      scoreLoop qs ans ((k, v) :: tm) = scoreLoop qs ans tm := by
    intro ans hans
    induction ans with
    | nil => rfl
    | cons wa rest ih =>
      have hwa : wa.1 ≠ k := hans wa (by simp)
      have hl : List.lookup wa.1 ((k, v) :: tm) = List.lookup wa.1 tm := by
        have hb : (wa.1 == k) = false := beq_eq_false_iff_ne.mpr hwa
        simp [List.lookup_cons, hb]
      have hstep : scoreStep qs ((k, v) :: tm) (0, 0) wa = scoreStep qs tm (0, 0) wa := by
        simp only [scoreStep, hl]
      rw [scoreLoop_cons, scoreLoop_cons, hstep, ih (fun x hx => hans x (by simp [hx]))]
  exact ⟨h1 answers, h2 answers hk⟩

theorem total_time_sums_answers_keys_witness :
    (scoreLoop [] [("a", "x")] [("a", (2 : ℚ))]).2 =
      (([("a", "x")] : List (String × String)).map
        (fun wa => (List.lookup wa.1 [("a", (2 : ℚ))]).getD 0)).sum ∧
    scoreLoop [] [("a", "x")] (("b", (3 : ℚ)) :: [("a", (2 : ℚ))]) =
      scoreLoop [] [("a", "x")] [("a", (2 : ℚ))] :=
  total_time_sums_answers_keys [] [("a", "x")] [("a", (2 : ℚ))] "b" 3 (by decide)

theorem scoreStep_fst_eq (qs : List Question) (tm : List (String × ℚ))
    (wa : String × String) (hnodup : (qs.map Question.word).Nodup) :
    (scoreStep qs tm (0, 0) wa).1 =
      if ∃ q ∈ qs, q.word = wa.1 ∧ q.correct = wa.2 then 1 else 0 := by
  simp only [scoreStep]
  cases hf : List.find? (fun q => q.word == wa.1) qs with
  | none =>
    rw [List.find?_eq_none] at hf
    have hnc : ¬∃ q ∈ qs, q.word = wa.1 ∧ q.correct = wa.2 := by
      rintro ⟨q, hq, hqw, _⟩
      exact hf q hq (by simp [hqw])
    rw [if_neg hnc]
  | some q0 =>
    have hq0w : q0.word = wa.1 := by
      have hp := List.find?_some hf
      simpa using hp
    have hq0m : q0 ∈ qs := List.mem_of_find?_eq_some hf
    by_cases hc : q0.correct = wa.2
    · rw [if_pos ⟨q0, hq0m, hq0w, hc⟩]
      simp [hc]
    · have hnc : ¬∃ q ∈ qs, q.word = wa.1 ∧ q.correct = wa.2 := by
        rintro ⟨q, hq, hqw, hqc⟩
        have hqq : q = q0 :=
          List.inj_on_of_nodup_map hnodup hq hq0m (by rw [hqw, hq0w])
        rw [hqq] at hqc
        exact hc hqc
      rw [if_neg hnc]
      simp [hc]

/-- C8: the attempt's correct count is the number of `answers` entries whose
word has a question in the set and whose submitted answer equals that
question's accepted answer; an entry with no matching question is silently
ignored and changes nothing. -/
theorem correct_count (qs : List Question) (answers : List (String × String))
    (tm : List (String × ℚ)) (w a : String)
    (hnodup : (qs.map Question.word).Nodup)
    (hw : ∀ q ∈ qs, q.word ≠ w) :
    (scoreLoop qs answers tm).1 =
      answers.countP (fun wa => decide (∃ q ∈ qs, q.word = wa.1 ∧ q.correct = wa.2)) ∧
    (scoreLoop qs ((w, a) :: answers) tm).1 = (scoreLoop qs answers tm).1 := by
  have h1 : ∀ ans : List (String × String), (scoreLoop qs ans tm).1 =
      ans.countP (fun wa => decide (∃ q ∈ qs, q.word = wa.1 ∧ q.correct = wa.2)) := by
    intro ans
    induction ans with
    | nil => simp [scoreLoop]
    | cons wa rest ih =>
      rw [scoreLoop_cons]
      simp only [List.countP_cons]
      rw [scoreStep_fst_eq qs tm wa hnodup, ih]
      by_cases hp : ∃ q ∈ qs, q.word = wa.1 ∧ q.correct = wa.2
      · simp [hp]
        omega
      · simp [hp]
  refine ⟨h1 answers, ?_⟩
  rw [scoreLoop_cons]
  have hz : (scoreStep qs tm (0, 0) (w, a)).1 = 0 := by
    have hnc : ¬∃ q ∈ qs, q.word = (w, a).1 ∧ q.correct = (w, a).2 := by
      rintro ⟨q, hq, hqw, _⟩
      exact hw q hq hqw
    rw [scoreStep_fst_eq qs tm (w, a) hnodup, if_neg hnc]
  rw [hz, zero_add]

theorem correct_count_witness :
    (scoreLoop [⟨"cat", "gato"⟩] [("cat", "gato"), ("dog", "x")] []).1 =
      ([("cat", "gato"), ("dog", "x")] : List (String × String)).countP
        (fun wa => decide (∃ q ∈ [(⟨"cat", "gato"⟩ : Question)],
          q.word = wa.1 ∧ q.correct = wa.2)) ∧
    (scoreLoop [⟨"cat", "gato"⟩] (("dog", "x") :: [("cat", "gato"), ("dog", "x")]) []).1 =
      (scoreLoop [⟨"cat", "gato"⟩] [("cat", "gato"), ("dog", "x")] []).1 :=
  correct_count [⟨"cat", "gato"⟩] [("cat", "gato"), ("dog", "x")] [] "dog" "x"
    (by decide) (by decide)

/-! ### Lemmas about the submit handler -/

theorem filter_email_eq_singleton (db : List UserRec) (email : String)
    (hnodup : (db.map UserRec.email).Nodup) (u0 : UserRec) (hu : u0 ∈ db)
    (he : u0.email = email) :
    db.filter (fun u => u.email == email) = [u0] := by
  induction db with
  | nil => cases hu
  | cons x rest ih =>
    simp only [List.map_cons, List.nodup_cons] at hnodup
    obtain ⟨hx, hrest⟩ := hnodup
    rcases List.mem_cons.mp hu with rfl | hmem
    · have hpx : (u0.email == email) = true := by simp [he]
      have hnil : rest.filter (fun u => u.email == email) = [] := by
        rw [List.filter_eq_nil_iff]
        intro u hu2
        have hne : u.email ≠ email := by
          intro hee
          exact hx (by rw [he, ← hee]; exact List.mem_map_of_mem UserRec.email hu2)
        simp [hne]
      simp [List.filter_cons, hpx, hnil]
    · have hxe : x.email ≠ email := by
        intro hee
        apply hx
        rw [hee, ← he]
        exact List.mem_map_of_mem UserRec.email hmem
      have hpx : (x.email == email) = false := beq_eq_false_iff_ne.mpr hxe
      simp [List.filter_cons, hpx]
      exact ih hrest hmem

theorem selectSingle_some (db : List UserRec) (email : String)
    (hnodup : (db.map UserRec.email).Nodup) (u0 : UserRec) (hu : u0 ∈ db)
    (he : u0.email = email) :
    selectSingle db email = some u0 := by
  rw [selectSingle, filter_email_eq_singleton db email hnodup u0 hu he]

theorem selectSingle_none (db : List UserRec) (email : String)
    (hnone : ∀ u ∈ db, u.email ≠ email) :
    selectSingle db email = none := by
  have hnil : db.filter (fun u => u.email == email) = [] := by
    rw [List.filter_eq_nil_iff]
    intro u hu2
    simp [hnone u hu2]
  rw [selectSingle, hnil]

/-- C1: the upsert of the submit handler.  When exactly one record exists for
the email, the persisted record adds this attempt's correct count to the
existing one and formats the sum of the parsed existing duration and this
attempt's milliseconds; when none exists, a new record is appended carrying
this attempt's correct count and formatted duration, with rank 0. -/
theorem submission_merge (store : Store) (email : String)
    (answers : List (String × String)) (time : List (String × ℚ))
    (hemail : email ≠ "")
    (hnodup : (store.users.map UserRec.email).Nodup) :
    (∀ u0 ∈ store.users, u0.email = email →
      ∃ u1, u1 ∈ (handleSubmit store ⟨some email, some answers, some time⟩).1.users ∧
        u1.email = email ∧
        u1.number_of_correct_ans =
          u0.number_of_correct_ans + (scoreLoop store.questions answers time).1 ∧
        u1.time = msToInterval (intervalToMs u0.time +
          (scoreLoop store.questions answers time).2) ∧
        u1.rank = u0.rank) ∧
    ((∀ u0 ∈ store.users, u0.email ≠ email) →
      (handleSubmit store ⟨some email, some answers, some time⟩).1.users =
        store.users ++ [⟨email, (scoreLoop store.questions answers time).1,
          msToInterval (scoreLoop store.questions answers time).2, 0⟩]) := by
  constructor
  · intro u0 hu0 he
    have hsel := selectSingle_some store.users email hnodup u0 hu0 he
    have hh : (handleSubmit store ⟨some email, some answers, some time⟩).1.users =
        store.users.map (fun u => if u.email = email then { u with number_of_correct_ans := u0.number_of_correct_ans + (scoreLoop store.questions answers time).1, time := msToInterval (intervalToMs u0.time + (scoreLoop store.questions answers time).2) } else u) := by
      simp only [handleSubmit, hsel, if_neg hemail]
    rw [hh]
    refine ⟨{ u0 with number_of_correct_ans := u0.number_of_correct_ans + (scoreLoop store.questions answers time).1, time := msToInterval (intervalToMs u0.time + (scoreLoop store.questions answers time).2) }, ?_, by simp [he], by simp, by simp, by simp⟩
    have himg := List.mem_map_of_mem (fun u => if u.email = email then { u with number_of_correct_ans := u0.number_of_correct_ans + (scoreLoop store.questions answers time).1, time := msToInterval (intervalToMs u0.time + (scoreLoop store.questions answers time).2) } else u) hu0
    simp only [if_pos he] at himg
    exact himg
  · intro hnone
    have hsel := selectSingle_none store.users email hnone
    simp only [handleSubmit, hsel, if_neg hemail]

theorem submission_merge_witness :
    (∃ u1, u1 ∈ (handleSubmit
        { users := [⟨"u@x.io", 1, "00:00:05", 0⟩], words := [],
          questions := [⟨"dog", "gato"⟩] }
        ⟨some "u@x.io", some [("dog", "perro")], some [("dog", 3000)]⟩).1.users ∧
      u1.email = "u@x.io" ∧
      u1.number_of_correct_ans = 1 +
        (scoreLoop [⟨"dog", "gato"⟩] [("dog", "perro")] [("dog", 3000)]).1 ∧
      u1.time = msToInterval (intervalToMs "00:00:05" +
        (scoreLoop [⟨"dog", "gato"⟩] [("dog", "perro")] [("dog", 3000)]).2) ∧
      u1.rank = 0) ∧
    (handleSubmit
        { users := [], words := [], questions := [⟨"cat", "gato"⟩] }
        ⟨some "n@x.io", some [("cat", "gato")], some [("cat", 5000)]⟩).1.users =
      [⟨"n@x.io", (scoreLoop [⟨"cat", "gato"⟩] [("cat", "gato")] [("cat", 5000)]).1,
        msToInterval (scoreLoop [⟨"cat", "gato"⟩] [("cat", "gato")] [("cat", 5000)]).2, 0⟩] := by
  constructor
  · exact (submission_merge
      { users := [⟨"u@x.io", 1, "00:00:05", 0⟩], words := [], questions := [⟨"dog", "gato"⟩] }
      "u@x.io" [("dog", "perro")] [("dog", 3000)] (by decide) (by decide)).1
      ⟨"u@x.io", 1, "00:00:05", 0⟩ (by decide) (by decide)
  · exact (submission_merge
      { users := [], words := [], questions := [⟨"cat", "gato"⟩] }
      "n@x.io" [("cat", "gato")] [("cat", 5000)] (by decide) (by decide)).2
      (by decide)

/-- C4 (amended): a submission whose `email` is absent or empty, or whose
`answers` or `time` field is absent, is rejected with the 400 message and the
store is left untouched.  (A present-but-empty `answers` or `time` mapping is
an object, which is truthy in JavaScript, so it passes the validation.) -/
theorem validation_rejects_falsy (store : Store) (body : SubmitBody)
    (h : body.email = none ∨ body.email = some "" ∨ body.answers = none ∨ body.time = none) :
    handleSubmit store body = (store, SubmitResult.badRequest missingFieldsMsg) := by
  obtain ⟨e, a, t⟩ := body
  simp only at h
  rcases h with rfl | rfl | rfl | rfl
  · cases a <;> cases t <;> rfl
  · cases a <;> cases t <;> simp [handleSubmit]
  · cases e <;> cases t <;> rfl
  · cases e <;> cases a <;> rfl

theorem validation_rejects_falsy_witness :
    handleSubmit { users := [], words := [], questions := [] }
      { email := some "u@x.io", answers := some [("a", "b")], time := none } =
      ({ users := [], words := [], questions := [] },
        SubmitResult.badRequest missingFieldsMsg) :=
  validation_rejects_falsy { users := [], words := [], questions := [] }
    { email := some "u@x.io", answers := some [("a", "b")], time := none }
    (by simp)

/-- C4 (counterexample): a submission with present but empty `answers` and
`time` mappings passes the validation — the handler answers 200 and persists
a new record, contradicting the claim that every empty-equivalent field is
rejected with a 400 and no persistence occurs. -/
theorem empty_mappings_pass_validation :
    (handleSubmit { users := [], words := [], questions := [] }
        { email := some "a@b.c", answers := some [], time := some [] }).2 =
      SubmitResult.ok 0 0 "00:00:00" "Answers submitted successfully" ∧
    (handleSubmit { users := [], words := [], questions := [] }
        { email := some "a@b.c", answers := some [], time := some [] }).1.users =
      [⟨"a@b.c", 0, "00:00:00", 0⟩] := by
  constructor
  · rfl
  · rfl

/-! ### Lemmas about the ranking branch -/

theorem userLe_rank_irrel (u v : UserRec) (r s : ℕ) :
    userLe { u with rank := r } { v with rank := s } ↔ userLe u v := by
  simp [userLe]

theorem rankFrom_length (i : ℕ) (l : List UserRec) : (rankFrom i l).length = l.length := by
  induction l generalizing i with
  | nil => rfl
  | cons u t ih => simp [rankFrom, ih]

theorem rankFrom_get (i : ℕ) (l : List UserRec) (j : ℕ) (hj : j < l.length)
    (hj1 : j < (rankFrom i l).length) :
    (rankFrom i l).get ⟨j, hj1⟩ = { l.get ⟨j, hj⟩ with rank := i + j + 1 } := by
  induction l generalizing i j with
  | nil => cases hj
  | cons u t ih =>
    cases j with
    | zero => rfl
    | succ j0 =>
      have hj0 : j0 < t.length := by simpa using hj
      have hj01 : j0 < (rankFrom (i + 1) t).length := by rw [rankFrom_length]; exact hj0
      have hstep : (rankFrom i (u :: t)).get ⟨j0 + 1, hj1⟩ =
          (rankFrom (i + 1) t).get ⟨j0, hj01⟩ := rfl
      rw [hstep, ih (i + 1) j0 hj0 hj01]
      have hg : (u :: t).get ⟨j0 + 1, hj⟩ = t.get ⟨j0, hj0⟩ := rfl
      rw [hg]
      have harith : i + 1 + j0 + 1 = i + (j0 + 1) + 1 := by omega
      rw [harith]

theorem rankFrom_map_rowCore (i : ℕ) (l : List UserRec) :
    (rankFrom i l).map rowCore = l.map rowCore := by
  induction l generalizing i with
  | nil => rfl
  | cons u t ih => simp [rankFrom, rowCore, ih]

theorem rankFrom_map_email (i : ℕ) (l : List UserRec) :
    (rankFrom i l).map UserRec.email = l.map UserRec.email := by
  induction l generalizing i with
  | nil => rfl
  | cons u t ih => simp [rankFrom, ih]

theorem mem_rankFrom (j : ℕ) (l : List UserRec) (b : UserRec) (hb : b ∈ rankFrom j l) :
    ∃ b0 ∈ l, ∃ r, b = { b0 with rank := r } := by
  induction l generalizing j with
  | nil => cases hb
  | cons u t ih =>
    rcases List.mem_cons.mp hb with rfl | hmem
    · exact ⟨u, by simp, j + 1, rfl⟩
    · obtain ⟨b0, hb0, r, hr⟩ := ih (j + 1) hmem
      exact ⟨b0, by simp [hb0], r, hr⟩

theorem rankFrom_sorted (i : ℕ) (l : List UserRec) (hs : List.Sorted userLe l) :
    List.Sorted userLe (rankFrom i l) := by
  induction l generalizing i with
  | nil => exact List.sorted_nil
  | cons u t ih =>
    rw [List.sorted_cons] at hs
    obtain ⟨hhead, htail⟩ := hs
    rw [rankFrom, List.sorted_cons]
    refine ⟨?_, ih (i + 1) htail⟩
    intro b hb
    obtain ⟨b0, hb0, r, rfl⟩ := mem_rankFrom (i + 1) t b hb
    exact (userLe_rank_irrel u b0 (i + 1) r).mpr (hhead b0 hb0)

theorem persistRanks_ok (fail : String → Option String) (l db : List UserRec)
    (hf : ∀ u ∈ l, fail u.email = none) :
    persistRanks fail l db = applyRankUpdates l db := by
  induction l generalizing db with
  | nil => rfl
  | cons u t ih =>
    rw [persistRanks, hf u (by simp)]
    rw [ih (updateRankByEmail db u.email u.rank) (fun x hx => hf x (by simp [hx]))]
    rfl

theorem persistRanks_skips_failures (fail : String → Option String) (l db : List UserRec) :
    persistRanks fail l db =
      applyRankUpdates (l.filter (fun u => (fail u.email).isNone)) db := by
  induction l generalizing db with
  | nil => rfl
  | cons u t ih =>
    rw [persistRanks]
    cases hf : fail u.email with
    | some e => simp [List.filter_cons, hf, ih, applyRankUpdates]
    | none => simp [List.filter_cons, hf, ih, applyRankUpdates]

theorem find?_email_eq (l : List UserRec) (email : String)
    (hnodup : (l.map UserRec.email).Nodup) (u : UserRec) (hu : u ∈ l)
    (he : u.email = email) :
    l.find? (fun x => x.email == email) = some u := by
  induction l with
  | nil => cases hu
  | cons x rest ih =>
    simp only [List.map_cons, List.nodup_cons] at hnodup
    obtain ⟨hx, hrest⟩ := hnodup
    rcases List.mem_cons.mp hu with rfl | hmem
    · have hpx : (u.email == email) = true := by simp [he]
      simp [List.find?_cons, hpx]
    · have hxe : x.email ≠ email := by
        intro hee
        apply hx
        rw [hee, ← he]
        exact List.mem_map_of_mem UserRec.email hmem
      have hpx : (x.email == email) = false := beq_eq_false_iff_ne.mpr hxe
      simp only [List.find?_cons, hpx]
      exact ih hrest hmem

/-- C9: a read served during the Learning phase sets every user's rank to 0
before the word content is returned, and changes nothing else: every other
field of every user record, and the other tables, are untouched. -/
theorem learning_resets_ranks (h : ℚ) (email : String)
    (failUpd : String → Option String) (store : Store)
    (hphase : phaseOf h = Phase.Learning)
    (hne : ∀ u ∈ store.users, u.email ≠ "") :
    handleRead h email failUpd store =
      ({ store with users := store.users.map (fun u => { u with rank := 0 }) },
        ReadResult.words store.words "Words learning period (12 AM - 8 PM UTC)") := by
  have hmap : store.users.map (fun u => if u.email ≠ "" then { u with rank := 0 } else u) =
      store.users.map (fun u => { u with rank := 0 }) :=
    List.map_congr_left (fun u hu => if_pos (hne u hu))
  simp only [handleRead, hphase, hmap]

theorem learning_resets_ranks_witness :
    handleRead 10 "u@x.io" (fun _ => none)
      { users := [⟨"a@x.io", 2, "00:00:09", 5⟩], words := [⟨"cat", "gato"⟩], questions := [] } =
      ({ users := [⟨"a@x.io", 2, "00:00:09", 0⟩], words := [⟨"cat", "gato"⟩], questions := [] },
        ReadResult.words [⟨"cat", "gato"⟩] "Words learning period (12 AM - 8 PM UTC)") := by
  rw [learning_resets_ranks 10 "u@x.io" (fun _ => none)
    { users := [⟨"a@x.io", 2, "00:00:09", 5⟩], words := [⟨"cat", "gato"⟩], questions := [] }
    (by decide) (by decide)]
  rfl

/-- C2: a read served during the Ranking phase with no persistence failures
returns a leaderboard that is, up to the overwritten rank field, a
permutation of the whole users table, ordered by correct count descending
with ties by elapsed duration ascending, each element carrying its 1-based
position as rank; the requesting user is the leaderboard element with the
requested email, or absent when no element matches. -/
theorem ranking_leaderboard (h : ℚ) (email : String) (failUpd : String → Option String)
    (store : Store)
    (hphase : phaseOf h = Phase.Ranking)
    (hnodup : (store.users.map UserRec.email).Nodup)
    (hfail : ∀ s, failUpd s = none) :
    ∃ st1 user lb,
      handleRead h email failUpd store =
        (st1, ReadResult.rankings user lb "Rankings period (8:30 PM - 12 AM UTC)") ∧
      (lb.map rowCore).Perm (store.users.map rowCore) ∧
      (∀ i j (hi : i < lb.length) (hj : j < lb.length), i < j →
        (lb.get ⟨j, hj⟩).number_of_correct_ans < (lb.get ⟨i, hi⟩).number_of_correct_ans ∨
          ((lb.get ⟨i, hi⟩).number_of_correct_ans = (lb.get ⟨j, hj⟩).number_of_correct_ans ∧
            intervalToMs (lb.get ⟨i, hi⟩).time ≤ intervalToMs (lb.get ⟨j, hj⟩).time)) ∧
      (∀ i (hi : i < lb.length), (lb.get ⟨i, hi⟩).rank = i + 1) ∧
      (∀ u ∈ lb, u.email = email → user = some u) ∧
      ((∀ u ∈ lb, u.email ≠ email) → user = none) := by
  have hsortperm := List.perm_insertionSort userLe store.users
  have hsorted := List.sorted_insertionSort userLe store.users
  have hok := persistRanks_ok failUpd (rankUsers (List.insertionSort userLe store.users))
    store.users (fun u _ => hfail u.email)
  refine ⟨({ store with users := applyRankUpdates (rankUsers (List.insertionSort userLe store.users)) store.users }),
    (rankUsers (List.insertionSort userLe store.users)).find? (fun u => u.email == email),
    rankUsers (List.insertionSort userLe store.users), ?_, ?_, ?_, ?_, ?_, ?_⟩
  · simp only [handleRead, hphase, hok]
  · have h1 : (rankUsers (List.insertionSort userLe store.users)).map rowCore =
        (List.insertionSort userLe store.users).map rowCore :=
      rankFrom_map_rowCore 0 (List.insertionSort userLe store.users)
    rw [h1]
    exact hsortperm.map rowCore
  · intro i j hi hj hij
    have hsl : List.Sorted userLe (rankUsers (List.insertionSort userLe store.users)) :=
      rankFrom_sorted 0 _ hsorted
    have hp := List.pairwise_iff_get.mp hsl ⟨i, hi⟩ ⟨j, hj⟩ hij
    exact hp
  · intro i hi
    have hi0 : i < (List.insertionSort userLe store.users).length := by
      have hlen : (rankUsers (List.insertionSort userLe store.users)).length =
          (List.insertionSort userLe store.users).length := rankFrom_length 0 _
      omega
    have hget : (rankUsers (List.insertionSort userLe store.users)).get ⟨i, hi⟩ =
        { (List.insertionSort userLe store.users).get ⟨i, hi0⟩ with rank := 0 + i + 1 } :=
      rankFrom_get 0 (List.insertionSort userLe store.users) i hi0 hi
    rw [hget]
    simp
  · intro u hu he
    have hemails : ((rankUsers (List.insertionSort userLe store.users)).map
        UserRec.email).Perm (store.users.map UserRec.email) := by
      have h1 : (rankUsers (List.insertionSort userLe store.users)).map UserRec.email =
          (List.insertionSort userLe store.users).map UserRec.email :=
        rankFrom_map_email 0 (List.insertionSort userLe store.users)
      rw [h1]
      exact hsortperm.map UserRec.email
    have hnodupLb := (hemails.nodup_iff).mpr hnodup
    exact find?_email_eq _ email hnodupLb u hu he
  · intro hnone
    rw [List.find?_eq_none]
    intro x hx
    simp [hnone x hx]

theorem ranking_leaderboard_witness :
    ∃ st1 user lb,
      handleRead 21 "u@x.io" (fun _ => none)
        ({ users := [⟨"a@x.io", 2, "00:00:09", 0⟩, ⟨"u@x.io", 2, "00:00:05", 0⟩],
           words := [], questions := [] }) =
        (st1, ReadResult.rankings user lb "Rankings period (8:30 PM - 12 AM UTC)") ∧
      (lb.map rowCore).Perm
        (([⟨"a@x.io", 2, "00:00:09", 0⟩, ⟨"u@x.io", 2, "00:00:05", 0⟩] :
          List UserRec).map rowCore) ∧
      (∀ i j (hi : i < lb.length) (hj : j < lb.length), i < j →
        (lb.get ⟨j, hj⟩).number_of_correct_ans < (lb.get ⟨i, hi⟩).number_of_correct_ans ∨
          ((lb.get ⟨i, hi⟩).number_of_correct_ans = (lb.get ⟨j, hj⟩).number_of_correct_ans ∧
            intervalToMs (lb.get ⟨i, hi⟩).time ≤ intervalToMs (lb.get ⟨j, hj⟩).time)) ∧
      (∀ i (hi : i < lb.length), (lb.get ⟨i, hi⟩).rank = i + 1) ∧
      (∀ u ∈ lb, u.email = "u@x.io" → user = some u) ∧
      ((∀ u ∈ lb, u.email ≠ "u@x.io") → user = none) :=
  ranking_leaderboard 21 "u@x.io" (fun _ => none)
    ({ users := [⟨"a@x.io", 2, "00:00:09", 0⟩, ⟨"u@x.io", 2, "00:00:05", 0⟩],
       words := [], questions := [] })
    (by decide) (by decide) (fun _ => rfl)

/-- C5, evaluated at a failing input: the source discards the result of each
rank update (server.js lines 97-102 have no `if (error) throw`, and the store
client reports failures in-band), so when the update for the top-ranked user
`b@x.io` fails the computation is neither aborted nor is the error surfaced:
the remaining updates still run (`a@x.io` receives rank 2), the failing
user's rank stays unwritten, and the full 200 rankings response is returned
instead of an error. -/
theorem ranking_failure_ignored :
    handleRead 21 "u@x.io" (fun s => if s = "b@x.io" then some "boom" else none)
      ({ users := [⟨"a@x.io", 2, "00:00:09", 0⟩, ⟨"b@x.io", 3, "00:00:05", 0⟩],
         words := [], questions := [] }) =
      (({ users := [⟨"a@x.io", 2, "00:00:09", 2⟩, ⟨"b@x.io", 3, "00:00:05", 0⟩],
          words := [], questions := [] }),
        ReadResult.rankings none
          [⟨"b@x.io", 3, "00:00:05", 1⟩, ⟨"a@x.io", 2, "00:00:09", 2⟩]
          "Rankings period (8:30 PM - 12 AM UTC)") := by
  decide
